import Mathlib

/-!
# SerialTerminal: line accumulation, tokenising and command dispatch

A shallow embedding of `src/SerialTerminal.cpp` / `src/SerialTerminal.hpp`.

* Characters are bytes (`Fin 256`); `std::string` is `List Byte`.
* `std::istringstream commandStream` is modelled by its get area (the unread
  characters) together with the `eofbit` / `failbit` state flags; `badbit` is
  never raised by a string stream and is left out.
* Callbacks are function pointers: a pointer is a natural number, `nullptr`
  is `none`.  What a callback does when it runs is given by `Callbacks`:
  callbacks pull arguments through `getNext` / `getRemaining`, so their
  effect on the terminal is an effect on `commandStream`.
* Everything `readSerial` does that is visible from outside (writes to the
  output sink, callback invocations) is recorded, in order, as a list of
  `Event`s.
-/

namespace SerialTerminalLib

/-- One `char` of the target (8 bits). -/
abbrev Byte := Fin 256

/-- Function pointer (`void (*)()` or `void (*)(std::string)`); `nullptr` is `none`. -/
abbrev FnPtr := Nat

/-- `isprint` in the "C" locale: 0x20 .. 0x7E. -/
def isprint (c : Byte) : Bool := decide (0x20 ≤ c.val) && decide (c.val ≤ 0x7E)

/-- `isspace` in the "C" locale: space, `\t`, `\n`, `\v`, `\f`, `\r`. -/
def isspace (c : Byte) : Bool := decide (c.val = 0x20) || (decide (9 ≤ c.val) && decide (c.val ≤ 13))

/-- `#define COMMAND_MAX_LENGHT 256` -/
def COMMAND_MAX_LENGHT : Nat := 256

/-! ## `std::istringstream` -/

/-- Input string stream: `rest` is the get area `[gptr, egptr)`. -/
structure IStringStream where
  rest : List Byte
  eofbit : Bool
  failbit : Bool
deriving DecidableEq, Repr

namespace IStringStream

/-- `good()`: no state flag is set. -/
def good (s : IStringStream) : Bool := !s.eofbit && !s.failbit

/-- `str(content)`: replaces the buffer and rewinds; the state flags are kept. -/
def str (s : IStringStream) (content : List Byte) : IStringStream :=
  { s with rest := content }

/-- `clear()`: resets the state flags to `goodbit`. -/
def clear (s : IStringStream) : IStringStream :=
  { s with eofbit := false, failbit := false }

/-- `stream >> target` for a `std::string` target.  The sentry fails when the
stream is not good, or when only whitespace is left (then `eofbit` and
`failbit` are raised); in both cases `target` is left as it was.  Otherwise
`target` is erased and receives the characters up to (not including) the next
whitespace character or the end of the buffer; reaching the end raises
`eofbit`. -/
def extract (s : IStringStream) (target : List Byte) : IStringStream × List Byte :=
  if s.good then
    match s.rest.dropWhile isspace with
    | [] => ({ rest := [], eofbit := true, failbit := true }, target)
    | c :: cs =>
      let tail := (c :: cs).dropWhile (fun x => !isspace x)
      ({ rest := tail, eofbit := tail.isEmpty, failbit := false },
        (c :: cs).takeWhile (fun x => !isspace x))
  else
    ({ s with failbit := true }, target)

/-- `readsome(data, n)`: the characters stored into `data`.  When the stream is
not good the sentry raises `failbit` and nothing is stored; otherwise
`min(in_avail(), n)` characters are taken from the get area (none, with no
flag raised, when the get area is empty).  No NUL is stored behind them. -/
def readsome (s : IStringStream) (n : Nat) : IStringStream × List Byte :=
  if s.good then
    ({ s with rest := s.rest.drop n }, s.rest.take n)
  else
    ({ s with failbit := true }, [])

end IStringStream

/-! ## The terminal -/

/-- `struct SerialTerminalCallback { std::string command; void (*function)(); }` -/
structure SerialTerminalCallback where
  command : List Byte
  function : FnPtr
deriving DecidableEq, Repr

/-- Data members of `class SerialTerminal`. -/
structure SerialTerminal where
  commandList_ : List SerialTerminalCallback
  numCommands_ : Int
  newlineChar_ : Byte
  rxBuffer_ : List Byte
  commandStream : IStringStream
  doCharEcho : Bool
  postCommandHandler_ : Option FnPtr
  defaultHandler_ : Option FnPtr
deriving DecidableEq, Repr

/-- What is observable while `readSerial` runs. -/
inductive Event where
  /-- `println()` on the output sink. -/
  | println
  /-- `print(...)` of the given bytes on the output sink. -/
  | print (bytes : List Byte)
  /-- `(*stc.function)()` for entry number `index` of `commandList_`;
  `stream` is `commandStream` as the callback finds it. -/
  | command (index : Nat) (function : FnPtr) (stream : IStringStream)
  /-- `(*defaultHandler_)(command)`. -/
  | default (function : FnPtr) (arg : List Byte) (stream : IStringStream)
  /-- `(*postCommandHandler_)()`. -/
  | post (function : FnPtr) (stream : IStringStream)
deriving DecidableEq, Repr

/-- The code behind the function pointers: how each callback leaves
`commandStream` (through `getNext` / `getRemaining` calls of its own). -/
structure Callbacks where
  command : FnPtr → IStringStream → IStringStream
  default : FnPtr → List Byte → IStringStream → IStringStream
  post : FnPtr → IStringStream → IStringStream

namespace SerialTerminal

/-- `clearBuffer()` -/
def clearBuffer (t : SerialTerminal) : SerialTerminal :=
  { t with rxBuffer_ := [] }

/-- `clearStream()`: `commandStream.str(""); commandStream.clear();` -/
def clearStream (t : SerialTerminal) : SerialTerminal :=
  { t with commandStream := (t.commandStream.str []).clear }

/-- The constructor.  `doCharEcho` has no initialiser: its value is whatever
the storage held (`echoStorage`). -/
def new (newLineChar : Byte) (echoStorage : Bool) : SerialTerminal :=
  clearBuffer
    { commandList_ := []
      numCommands_ := 0
      newlineChar_ := newLineChar
      rxBuffer_ := []
      commandStream := { rest := [], eofbit := false, failbit := false }
      doCharEcho := echoStorage
      postCommandHandler_ := none
      defaultHandler_ := none }

/-- `addCommand(command, function)` -/
def addCommand (t : SerialTerminal) (command : List Byte) (function : FnPtr) : SerialTerminal :=
  { t with
    commandList_ := t.commandList_ ++ [{ command := command, function := function }]
    numCommands_ := t.numCommands_ + 1 }

/-- `setSerialEcho(doEcho)` -/
def setSerialEcho (t : SerialTerminal) (doEcho : Bool) : SerialTerminal :=
  { t with doCharEcho := doEcho }

/-- `setPostCommandHandler(function)` -/
def setPostCommandHandler (t : SerialTerminal) (function : Option FnPtr) : SerialTerminal :=
  { t with postCommandHandler_ := function }

/-- `setDefaultHandler(function)` -/
def setDefaultHandler (t : SerialTerminal) (function : Option FnPtr) : SerialTerminal :=
  { t with defaultHandler_ := function }

end SerialTerminal

/-- `getNext()`, as it acts on `commandStream`: a fresh empty `token`, then
`commandStream >> token`. -/
def getNext (commandStream : IStringStream) : IStringStream × List Byte :=
  commandStream.extract []

/-- The C string starting at the beginning of `mem`: the bytes before the
first NUL. -/
def cstring (mem : List Byte) : List Byte :=
  mem.takeWhile (fun b => b != 0)

/-- `getRemaining()`, as it acts on `commandStream`.  `data` has no
initialiser; `mem` is what the storage at `data` (and behind it) holds when
the function is entered.  `readsome` overwrites the first bytes of it, and the
result is the C string found at `data`. -/
def getRemaining (commandStream : IStringStream) (mem : List Byte) : IStringStream × List Byte :=
  let r := commandStream.readsome COMMAND_MAX_LENGHT
  (r.1, cstring (r.2 ++ mem.drop r.2.length))

/-- The `for (stc : commandList_) if (command == stc.command) { ...; break; }`
scan: position and function pointer of the first entry whose name is
`command`; `index` is the position of the head of the list. -/
def scan (command : List Byte) : List SerialTerminalCallback → Nat → Option (Nat × FnPtr)
  | [], _ => none
  | stc :: rest, index =>
    if command = stc.command then some (index, stc.function)
    else scan command rest (index + 1)

/-- State of the `while` loop of `readSerial`: the object and the locals
`matched` and `command`, which are declared before the loop. -/
structure LoopState where
  term : SerialTerminal
  matched : Bool
  command : List Byte
deriving DecidableEq, Repr

/-- The block `if (!command.empty()) { ... }`: scan of the registry with the
call of the first matching entry, then the default handler when `matched` is
(still) false and a default handler is set.  Result: `commandStream` and
`matched` afterwards, and the events. -/
def dispatchCommand (cb : Callbacks) (t : SerialTerminal) (matched : Bool) (command : List Byte)
    (cs : IStringStream) : IStringStream × Bool × List Event :=
  if command ≠ [] then
    match scan command t.commandList_ 0 with
    | some (i, f) => (cb.command f cs, true, [Event.command i f cs])
    | none =>
      match matched, t.defaultHandler_ with
      | false, some d => (cb.default d command cs, false, [Event.default d command cs])
      | m, _ => (cs, m, [])
  else (cs, matched, [])

/-- The block `if (postCommandHandler_ != nullptr) { (*postCommandHandler_)(); }`. -/
def dispatchPost (cb : Callbacks) (t : SerialTerminal) (cs : IStringStream) :
    IStringStream × List Event :=
  match t.postCommandHandler_ with
  | some f => (cb.post f cs, [Event.post f cs])
  | none => (cs, [])

/-- The `if (c == newlineChar_) { ... }` branch of the loop body. -/
def dispatchLine (cb : Callbacks) (s : LoopState) : LoopState × List Event :=
  let echo : List Event := if s.term.doCharEcho then [Event.println] else []
  let t1 := s.term.clearStream
  let ex := (t1.commandStream.str t1.rxBuffer_).extract s.command
  let r := dispatchCommand cb t1 s.matched ex.2 ex.1
  let p := dispatchPost cb t1 r.1
  ({ term := SerialTerminal.clearBuffer { t1 with commandStream := p.1 }
     matched := r.2.1
     command := ex.2 },
   echo ++ r.2.2 ++ p.2)

/-- One iteration of the loop body on the character `c` just read. -/
def step (cb : Callbacks) (c : Byte) (s : LoopState) : LoopState × List Event :=
  if c = s.term.newlineChar_ then
    dispatchLine cb s
  else if c = 8 ∨ c = 127 then
    if s.term.rxBuffer_ ≠ [] then
      ({ s with term := { s.term with rxBuffer_ := s.term.rxBuffer_.dropLast } },
        if s.term.doCharEcho then [Event.print [8, 0x20, 8]] else [])
    else (s, [])
  else if isprint c then
    ({ s with term := { s.term with rxBuffer_ := s.term.rxBuffer_ ++ [c] } },
      if s.term.doCharEcho then [Event.print [c]] else [])
  else (s, [])

/-- The loop `while (available() > 0) { c = read(); ... }` over the bytes
waiting in the receive queue `rx`. -/
def readLoop (cb : Callbacks) : List Byte → LoopState → LoopState × List Event
  | [], s => (s, [])
  | c :: rx, s =>
    let r := step cb c s
    let r2 := readLoop cb rx r.1
    (r2.1, r.2 ++ r2.2)

/-- The loop state on entry to `readSerial`: `bool matched = false;
std::string command;`. -/
def LoopState.entry (t : SerialTerminal) : LoopState :=
  { term := t, matched := false, command := [] }

/-- `readSerial()`: the object afterwards and the events, in order. -/
def readSerial (cb : Callbacks) (t : SerialTerminal) (rx : List Byte) : SerialTerminal × List Event :=
  let r := readLoop cb rx (LoopState.entry t)
  (r.1.term, r.2)

/-- The results of `n` successive `getNext()` calls. -/
def getNextSeq : Nat → IStringStream → List (List Byte)
  | 0, _ => []
  | n + 1, cs => (getNext cs).2 :: getNextSeq n (getNext cs).1

/-- `commandStream` right after `clearStream(); commandStream.str(line);`. -/
def freshStream (line : List Byte) : IStringStream :=
  { rest := line, eofbit := false, failbit := false }

/-- The loop state of a `readSerial` call once the bytes `before` have been
consumed. -/
def loopAfter (cb : Callbacks) (t : SerialTerminal) (before : List Byte) : LoopState :=
  (readLoop cb before (LoopState.entry t)).1

/-! ## Vocabulary of the specification -/

/-- The whitespace-delimited tokens of a line: its maximal runs of
non-whitespace characters, in order. -/
def tokens (line : List Byte) : List (List Byte) :=
  (line.splitOnP isspace).filter (fun w => !w.isEmpty)

/-- The callback events of a trace (writes to the output sink left out). -/
def callbackEvents (evs : List Event) : List Event :=
  evs.filter (fun e => match e with
    | Event.println => false
    | Event.print _ => false
    | _ => true)

/-- The writes to the output sink in a trace. -/
def sinkEvents (evs : List Event) : List Event :=
  evs.filter (fun e => match e with
    | Event.println => true
    | Event.print _ => true
    | _ => false)

/-- The command-handler invocations of a trace: registry position and
function pointer of the entry called, in order. -/
def commandCalls (evs : List Event) : List (Nat × FnPtr) :=
  evs.filterMap (fun e => match e with
    | Event.command i f _ => some (i, f)
    | _ => none)

/-- Entry number `k` of the registry exists, holds the function pointer `f`,
and no entry registered before it has the same name. -/
def firstOfName (l : List SerialTerminalCallback) (k : Nat) (f : FnPtr) : Bool :=
  match l[k]? with
  | some e => e.function == f && (l.take k).all (fun e1 => e1.command != e.command)
  | none => false

/-- The post-command handler invocations of a trace: the function pointer
called, once per invocation, in order. -/
def postCalls (evs : List Event) : List FnPtr :=
  evs.filterMap (fun e => match e with
    | Event.post f _ => some f
    | _ => none)

/-- Line editing as the specification words it: a printable byte (0x20-0x7E)
is appended, backspace (8) or delete (127) removes the last character of a
non-empty buffer and leaves an empty buffer empty, any other byte changes
nothing. -/
def editKey (buf : List Byte) (b : Byte) : List Byte :=
  if 0x20 ≤ b.val ∧ b.val ≤ 0x7E then buf ++ [b]
  else if b = 8 ∨ b = 127 then (if buf = [] then [] else buf.dropLast)
  else buf

/-- The line buffer after one more input byte: emptied by the terminator,
edited by every other byte. -/
def bufferAfter (terminator : Byte) (buf : List Byte) (b : Byte) : List Byte :=
  if b = terminator then [] else editKey buf b

/-- The echo contribution of one input byte, as the specification lists it. -/
def echoOf (terminator : Byte) (buf : List Byte) (b : Byte) : List Event :=
  if b = terminator then [Event.println]
  else if b = 8 ∨ b = 127 then (if buf = [] then [] else [Event.print [8, 0x20, 8]])
  else if 0x20 ≤ b.val ∧ b.val ≤ 0x7E then [Event.print [b]]
  else []

/-- The echo of an input sequence: the contributions of its bytes, in order,
each taken against the buffer as it stands when the byte arrives. -/
def echoSpec (terminator : Byte) : List Byte → List Byte → List Event
  | _, [] => []
  | buf, b :: rest => echoOf terminator buf b ++ echoSpec terminator (bufferAfter terminator buf b) rest

/-- The unread remainder is empty or starts with a non-whitespace character:
the cursor is past the whitespace that followed the last token. -/
def pastWhitespace (rest : List Byte) : Bool :=
  match rest with
  | [] => true
  | c :: _ => !isspace c

/-- The unread remainder is empty or starts with a whitespace character: the
cursor is directly behind the last character of a token. -/
def atDelimiter (rest : List Byte) : Bool :=
  match rest with
  | [] => true
  | c :: _ => isspace c

/-- A callback that leaves `commandStream` alone. -/
def idle : Callbacks :=
  { command := fun _ cs => cs
    default := fun _ _ cs => cs
    post := fun _ cs => cs }

/-- Bytes of an ASCII string literal. -/
def bytes (s : String) : List Byte :=
  s.toList.map (fun ch => Fin.ofNat ch.toNat)

/-- The terminal of the examples: terminator newline, echo off, `PING`
registered twice (function pointers 1 and 2), default handler 7,
post-command handler 9. -/
def pingTerminal : SerialTerminal :=
  ((((SerialTerminal.new 10 false).addCommand (bytes "PING") 1).addCommand (bytes "PING") 2).setDefaultHandler
    (some 7)).setPostCommandHandler (some 9)

/-! ## The public interface as a whole, and the receive queue -/

/-- The constructor with its default arguments `uart_nr = 0` and
`newLineChar = '\n'`. -/
def SerialTerminal.newDefault (echoStorage : Bool) : SerialTerminal :=
  SerialTerminal.new 10 echoStorage

/-- One call of a public member function from outside a callback. -/
inductive Call where
  | addCommand (command : List Byte) (function : FnPtr)
  | setDefaultHandler (function : Option FnPtr)
  | setSerialEcho (doEcho : Bool)
  | setPostCommandHandler (function : Option FnPtr)
  | readSerial (rx : List Byte)
  | clearBuffer
  | clearStream
  | getNext
  | getRemaining (mem : List Byte)

/-- The object after one call. -/
def Call.run (cb : Callbacks) (t : SerialTerminal) : Call → SerialTerminal
  | Call.addCommand command function => t.addCommand command function
  | Call.setDefaultHandler function => t.setDefaultHandler function
  | Call.setSerialEcho doEcho => t.setSerialEcho doEcho
  | Call.setPostCommandHandler function => t.setPostCommandHandler function
  | Call.readSerial rx => (SerialTerminalLib.readSerial cb t rx).1
  | Call.clearBuffer => t.clearBuffer
  | Call.clearStream => t.clearStream
  | Call.getNext => { t with commandStream := (SerialTerminalLib.getNext t.commandStream).1 }
  | Call.getRemaining mem =>
    { t with commandStream := (SerialTerminalLib.getRemaining t.commandStream mem).1 }

/-- The object after a sequence of calls. -/
def runCalls (cb : Callbacks) (t : SerialTerminal) (calls : List Call) : SerialTerminal :=
  calls.foldl (Call.run cb) t

/-- Modelled from the spec: the input source (`HardwareSerial`, not part of
the sources) exposes "bytes currently available" as a count.  `available()`
on a receive queue. -/
def available (queue : List Byte) : Nat := queue.length

/-- Modelled from the spec: the input source exposes "read one byte"
(consuming).  `read()` returns the oldest waiting byte as an `int` and removes
it; with nothing waiting it returns -1. -/
def read (queue : List Byte) : Int × List Byte :=
  match queue with
  | [] => (-1, [])
  | b :: q => ((b.val : Int), q)

/-- `static_cast<char>(i)` for an `int`: reduction modulo 256. -/
def toChar (i : Int) : Byte := Fin.ofNat (i % 256).toNat

/-- What a run of the `while` loop leaves behind, with the receive queue made
explicit. -/
structure Drained where
  /-- object and locals when the run stops -/
  state : LoopState
  /-- bytes still waiting in the receive queue -/
  queue : List Byte
  /-- the characters obtained from `read()`, in order -/
  reads : List Byte
  /-- the events, in order -/
  events : List Event
  /-- the loop condition was found false (the run did not stop for lack of fuel) -/
  finished : Bool
deriving DecidableEq, Repr

/-- The loop `while (available() > 0) { c = static_cast<char>(read()); ... }`
on the receive queue, for at most `fuel` evaluations of the loop condition. -/
def drain (cb : Callbacks) : Nat → List Byte → LoopState → Drained
  | 0, queue, s =>
    { state := s, queue := queue, reads := [], events := [], finished := false }
  | fuel + 1, queue, s =>
    if available queue > 0 then
      let r := read queue
      let c := toChar r.1
      let st := step cb c s
      let d := drain cb fuel r.2 st.1
      { d with
        reads := c :: d.reads
        events := st.2 ++ d.events }
    else
      { state := s, queue := queue, reads := [], events := [], finished := true }

/-- The input cut at its terminator bytes: the terminated lines (each without
its terminator), in order, and the unterminated rest behind the last
terminator. -/
def splitLines (terminator : Byte) : List Byte → List (List Byte) × List Byte
  | [] => ([], [])
  | b :: q =>
    if b = terminator then ([] :: (splitLines terminator q).1, (splitLines terminator q).2)
    else
      match (splitLines terminator q).1 with
      | [] => ([], b :: (splitLines terminator q).2)
      | l :: ls => ((b :: l) :: ls, (splitLines terminator q).2)

/-- The input that is cut into the given terminated lines and rest. -/
def joinLines (terminator : Byte) : List (List Byte) → List Byte → List Byte
  | [], rest => rest
  | l :: ls, rest => l ++ terminator :: joinLines terminator ls rest

/-- Accumulation of bytes that are not the terminator, as the specification
words it: the line buffer is edited byte by byte, the echo (if enabled) is the
sequence of the per-byte contributions, and nothing else happens: no
callback, no change to the token stream or to `matched` and `command`. -/
def editOnly (line : List Byte) (s : LoopState) : LoopState × List Event :=
  ({ s with term := { s.term with rxBuffer_ := line.foldl editKey s.term.rxBuffer_ } },
    if s.term.doCharEcho then echoSpec s.term.newlineChar_ s.term.rxBuffer_ line else [])

/-- Processing by lines: for each terminated line, in order, its bytes are
accumulated and then one line-dispatch cycle (the whole end-of-line branch
`dispatchLine`) is carried out; the unterminated rest is accumulated only. -/
def byLines (cb : Callbacks) : List (List Byte) → List Byte → LoopState → LoopState × List Event
  | [], rest, s => editOnly rest s
  | line :: more, rest, s =>
    let a := editOnly line s
    let d := dispatchLine cb a.1
    let r := byLines cb more rest d.1
    (r.1, a.2 ++ d.2 ++ r.2)

/-- Printable, and whitespace only if it is the space character. -/
def lineChar (c : Byte) : Bool := isprint c && (!isspace c || c == 0x20)

/-- The configuration of a terminal: what `readSerial` never writes. -/
def SameConfig (t u : SerialTerminal) : Prop :=
  u.commandList_ = t.commandList_ ∧ u.newlineChar_ = t.newlineChar_ ∧
  u.doCharEcho = t.doCharEcho ∧ u.postCommandHandler_ = t.postCommandHandler_ ∧
  u.defaultHandler_ = t.defaultHandler_

/-- A stream is consistent when a raised flag means nothing is left to read:
the only way `>>` raises a flag is by running into the end of the buffer. -/
def Consistent (cs : IStringStream) : Prop := cs.good = false → cs.rest = []

/-! ## Structure of the loop -/

theorem readLoop_append (cb : Callbacks) (a b : List Byte) (s : LoopState) :
    readLoop cb (a ++ b) s =
      ((readLoop cb b (readLoop cb a s).1).1,
        (readLoop cb a s).2 ++ (readLoop cb b (readLoop cb a s).1).2) := by
  induction a generalizing s with
  | nil => simp [readLoop]
  | cons c a ih => simp [readLoop, ih, List.append_assoc]

theorem dispatchLine_config (cb : Callbacks) (s : LoopState) :
    SameConfig s.term (dispatchLine cb s).1.term := by
  simp [SameConfig, dispatchLine, SerialTerminal.clearBuffer, SerialTerminal.clearStream]

theorem step_config (cb : Callbacks) (c : Byte) (s : LoopState) :
    SameConfig s.term (step cb c s).1.term := by
  unfold step
  split_ifs
  · exact dispatchLine_config cb s
  all_goals simp [SameConfig]

theorem readLoop_config (cb : Callbacks) (rx : List Byte) (s : LoopState) :
    SameConfig s.term (readLoop cb rx s).1.term := by
  induction rx generalizing s with
  | nil => simp [readLoop, SameConfig]
  | cons c rx ih =>
    simp only [readLoop]
    obtain ⟨h1, h2, h3, h4, h5⟩ := step_config cb c s
    obtain ⟨k1, k2, k3, k4, k5⟩ := ih (step cb c s).1
    exact ⟨k1.trans h1, k2.trans h2, k3.trans h3, k4.trans h4, k5.trans h5⟩

/-! ## Tokens -/

theorem tokens_nil : tokens [] = [] := by
  simp [tokens, List.splitOnP_nil]

theorem tokens_cons_space (c : Byte) (l : List Byte) (h : isspace c = true) :
    tokens (c :: l) = tokens l := by
  simp [tokens, List.splitOnP_cons, h]

theorem splitOnP_head (l : List Byte) :
    ∃ more, l.splitOnP isspace = l.takeWhile (fun x => !isspace x) :: more ∧
      more.filter (fun w => !w.isEmpty) = tokens (l.dropWhile (fun x => !isspace x)) := by
  induction l with
  | nil => exact ⟨[], by simp [List.splitOnP_nil], by simp [tokens_nil]⟩
  | cons x xs ih =>
    obtain ⟨more, h1, h2⟩ := ih
    by_cases hx : isspace x = true
    · refine ⟨xs.splitOnP isspace, by simp [List.splitOnP_cons, hx], ?_⟩
      simp [hx, tokens, List.splitOnP_cons]
    · have hx : isspace x = false := by simpa using hx
      refine ⟨more, by simp [List.splitOnP_cons, hx, h1, List.modifyHead], ?_⟩
      simpa [hx] using h2

theorem tokens_cons_nonspace (c : Byte) (l : List Byte) (h : isspace c = false) :
    tokens (c :: l) =
      (c :: l).takeWhile (fun x => !isspace x) ::
        tokens ((c :: l).dropWhile (fun x => !isspace x)) := by
  obtain ⟨more, h1, h2⟩ := splitOnP_head (c :: l)
  rw [← h2]
  simp [tokens, h1, h]

theorem tokens_dropWhile_space (l : List Byte) : tokens (l.dropWhile isspace) = tokens l := by
  induction l with
  | nil => simp
  | cons x xs ih =>
    by_cases hx : isspace x = true
    · simp [hx, ih, tokens_cons_space]
    · simp [hx]

theorem dropWhile_space_head (l : List Byte) (c : Byte) (cs : List Byte)
    (h : l.dropWhile isspace = c :: cs) : isspace c = false := by
  induction l with
  | nil => simp at h
  | cons x xs ih =>
    by_cases hx : isspace x = true
    · simp [hx] at h; exact ih h
    · simp [hx] at h; obtain ⟨rfl, -⟩ := h; simpa using hx

theorem dropWhile_nonspace_head (l : List Byte) :
    l.dropWhile (fun x => !isspace x) = [] ∨
      ∃ c cs, l.dropWhile (fun x => !isspace x) = c :: cs ∧ isspace c = true := by
  induction l with
  | nil => simp
  | cons x xs ih =>
    by_cases hx : isspace x = true
    · right; exact ⟨x, xs, by simp [hx], hx⟩
    · simpa [hx] using ih

theorem freshStream_consistent (line : List Byte) : Consistent (freshStream line) := by
  simp [Consistent, freshStream, IStringStream.good]

theorem extract_none (s : IStringStream) (target : List Byte) (hs : Consistent s)
    (h : tokens s.rest = []) :
    (s.extract target).2 = target ∧ (s.extract target).1.rest = [] ∧
      (s.extract target).1.failbit = true := by
  unfold IStringStream.extract
  by_cases hg : s.good = true
  · simp only [hg, if_true]
    cases hd : s.rest.dropWhile isspace with
    | nil => simp
    | cons c cs =>
      have hc := dropWhile_space_head _ _ _ hd
      rw [← tokens_dropWhile_space, hd, tokens_cons_nonspace c cs hc] at h
      simp at h
  · have hg : s.good = false := by simpa using hg
    simp [hg, hs hg]

theorem extract_some (s : IStringStream) (target w : List Byte) (ws : List (List Byte))
    (hs : Consistent s) (h : tokens s.rest = w :: ws) :
    (s.extract target).2 = w ∧ tokens (s.extract target).1.rest = ws ∧
      (s.extract target).1.failbit = false ∧
      (s.extract target).1.eofbit = (s.extract target).1.rest.isEmpty ∧
      ∃ sp, (∀ x ∈ sp, isspace x = true) ∧ s.rest = sp ++ w ++ (s.extract target).1.rest := by
  unfold IStringStream.extract
  by_cases hg : s.good = true
  · simp only [hg, if_true]
    cases hd : s.rest.dropWhile isspace with
    | nil =>
      rw [← tokens_dropWhile_space, hd, tokens_nil] at h
      simp at h
    | cons c cs =>
      have hc := dropWhile_space_head _ _ _ hd
      rw [← tokens_dropWhile_space, hd, tokens_cons_nonspace c cs hc] at h
      simp only [List.cons.injEq] at h
      obtain ⟨h1, h2⟩ := h
      refine ⟨h1, h2, rfl, rfl, s.rest.takeWhile isspace, ?_, ?_⟩
      · intro x hx
        exact (List.mem_takeWhile_imp hx)
      · dsimp only
        rw [← h1, List.append_assoc, List.takeWhile_append_dropWhile, ← hd,
          List.takeWhile_append_dropWhile]
  · have hg : s.good = false := by simpa using hg
    rw [hs hg, tokens_nil] at h
    simp at h

/-! ## Line editing and echo -/

theorem step_buffer (cb : Callbacks) (c : Byte) (s : LoopState) :
    (step cb c s).1.term.rxBuffer_ = bufferAfter s.term.newlineChar_ s.term.rxBuffer_ c := by
  unfold step bufferAfter editKey
  by_cases hc : c = s.term.newlineChar_
  · simp [hc, dispatchLine, SerialTerminal.clearBuffer]
  · by_cases hb : c = 8 ∨ c = 127
    · have hp : ¬ (0x20 ≤ c.val ∧ c.val ≤ 0x7E) := by
        rcases hb with rfl | rfl <;> decide
      by_cases he : s.term.rxBuffer_ = [] <;> simp [hc, hb, hp, he]
    · by_cases hp : 0x20 ≤ c.val ∧ c.val ≤ 0x7E
      · simp [hc, hb, hp, isprint]
      · have : isprint c = false := by
          simp only [isprint, Bool.and_eq_false_iff, decide_eq_false_iff_not]
          tauto
        simp [hc, hb, hp, this]

theorem dispatchCommand_sink (cb : Callbacks) (t : SerialTerminal) (m : Bool) (w : List Byte)
    (cs : IStringStream) : sinkEvents (dispatchCommand cb t m w cs).2.2 = [] := by
  unfold dispatchCommand
  split_ifs
  · cases scan w t.commandList_ 0 with
    | some r => simp [sinkEvents]
    | none => cases m <;> cases t.defaultHandler_ <;> simp [sinkEvents]
  · simp [sinkEvents]

theorem dispatchPost_sink (cb : Callbacks) (t : SerialTerminal) (cs : IStringStream) :
    sinkEvents (dispatchPost cb t cs).2 = [] := by
  unfold dispatchPost
  cases t.postCommandHandler_ <;> simp [sinkEvents]

theorem sinkEvents_append (a b : List Event) :
    sinkEvents (a ++ b) = sinkEvents a ++ sinkEvents b := by
  simp [sinkEvents]

theorem callbackEvents_append (a b : List Event) :
    callbackEvents (a ++ b) = callbackEvents a ++ callbackEvents b := by
  simp [callbackEvents]

theorem postCalls_append (a b : List Event) :
    postCalls (a ++ b) = postCalls a ++ postCalls b := by
  simp [postCalls]

theorem dispatchLine_sink (cb : Callbacks) (s : LoopState) :
    sinkEvents (dispatchLine cb s).2 = if s.term.doCharEcho then [Event.println] else [] := by
  simp only [dispatchLine, sinkEvents_append, dispatchCommand_sink, dispatchPost_sink]
  split_ifs <;> simp [sinkEvents]

theorem step_sink (cb : Callbacks) (c : Byte) (s : LoopState) :
    sinkEvents (step cb c s).2 =
      if s.term.doCharEcho then echoOf s.term.newlineChar_ s.term.rxBuffer_ c else [] := by
  unfold step echoOf
  by_cases hc : c = s.term.newlineChar_
  · simp [hc, dispatchLine_sink]
  · by_cases hb : c = 8 ∨ c = 127
    · by_cases he : s.term.rxBuffer_ = [] <;> by_cases hE : s.term.doCharEcho
        <;> simp [hc, hb, he, hE, sinkEvents]
    · by_cases hp : 0x20 ≤ c.val ∧ c.val ≤ 0x7E
      · by_cases hE : s.term.doCharEcho <;> simp [hc, hb, hp, hE, isprint, sinkEvents]
      · have : isprint c = false := by
          simp only [isprint, Bool.and_eq_false_iff, decide_eq_false_iff_not]
          tauto
        simp [hc, hb, hp, this, sinkEvents]

theorem readLoop_sink (cb : Callbacks) (rx : List Byte) (s : LoopState) :
    sinkEvents (readLoop cb rx s).2 =
      if s.term.doCharEcho then echoSpec s.term.newlineChar_ s.term.rxBuffer_ rx else [] := by
  induction rx generalizing s with
  | nil => simp [readLoop, echoSpec, sinkEvents]
  | cons c rx ih =>
    obtain ⟨-, h2, h3, -, -⟩ := step_config cb c s
    simp only [readLoop, sinkEvents_append, ih, step_sink, step_buffer, h2, h3, echoSpec]
    split_ifs <;> simp

theorem step_callbacks_of_ne (cb : Callbacks) (c : Byte) (s : LoopState)
    (hc : c ≠ s.term.newlineChar_) : callbackEvents (step cb c s).2 = [] := by
  unfold step
  simp only [hc, if_false]
  split_ifs <;> simp [callbackEvents]

theorem readLoop_no_terminator (cb : Callbacks) (rx : List Byte) (s : LoopState)
    (h : s.term.newlineChar_ ∉ rx) :
    callbackEvents (readLoop cb rx s).2 = [] ∧
      (readLoop cb rx s).1.term.rxBuffer_ = rx.foldl editKey s.term.rxBuffer_ := by
  induction rx generalizing s with
  | nil => simp [readLoop, callbackEvents]
  | cons c rx ih =>
    have hc : c ≠ s.term.newlineChar_ := fun e => h (by simp [e])
    obtain ⟨-, h2, -, -, -⟩ := step_config cb c s
    have hrx : (step cb c s).1.term.newlineChar_ ∉ rx := by
      rw [h2]; exact fun e => h (List.mem_cons_of_mem _ e)
    obtain ⟨k1, k2⟩ := ih (step cb c s).1 hrx
    simp only [readLoop, callbackEvents_append, k1, k2, step_callbacks_of_ne cb c s hc,
      step_buffer, bufferAfter, hc, if_false, List.foldl_cons, List.append_nil, and_self]

theorem dispatchCommand_postCalls (cb : Callbacks) (t : SerialTerminal) (m : Bool) (w : List Byte)
    (cs : IStringStream) : postCalls (dispatchCommand cb t m w cs).2.2 = [] := by
  unfold dispatchCommand
  split_ifs
  · cases scan w t.commandList_ 0 with
    | some r => simp [postCalls]
    | none => cases m <;> cases t.defaultHandler_ <;> simp [postCalls]
  · simp [postCalls]

theorem step_postCalls (cb : Callbacks) (c : Byte) (s : LoopState) :
    postCalls (step cb c s).2 =
      if c = s.term.newlineChar_ then s.term.postCommandHandler_.toList else [] := by
  unfold step
  by_cases hc : c = s.term.newlineChar_
  · simp only [hc, if_true, dispatchLine, postCalls_append, dispatchCommand_postCalls]
    cases hp : s.term.postCommandHandler_ <;>
      split_ifs <;> simp [postCalls, dispatchPost, SerialTerminal.clearStream, hp]
  · simp only [hc, if_false]
    split_ifs <;> simp [postCalls]

theorem readLoop_postCalls (cb : Callbacks) (rx : List Byte) (s : LoopState) :
    postCalls (readLoop cb rx s).2 =
      match s.term.postCommandHandler_ with
      | some p => List.replicate (rx.count s.term.newlineChar_) p
      | none => [] := by
  induction rx generalizing s with
  | nil => cases s.term.postCommandHandler_ <;> simp [readLoop, postCalls]
  | cons c rx ih =>
    obtain ⟨-, h2, -, h4, -⟩ := step_config cb c s
    simp only [readLoop, postCalls_append, ih, step_postCalls, h2, h4]
    cases s.term.postCommandHandler_ with
    | none => simp
    | some p =>
      by_cases hc : c = s.term.newlineChar_
      · simp [hc, List.replicate_succ]
      · simp [hc, List.count_cons, Ne.symm hc]

theorem dispatchCommand_callbacks (cb : Callbacks) (t : SerialTerminal) (m : Bool) (w : List Byte)
    (cs : IStringStream) :
    callbackEvents (dispatchCommand cb t m w cs).2.2 = (dispatchCommand cb t m w cs).2.2 := by
  unfold dispatchCommand
  split_ifs
  · cases scan w t.commandList_ 0 with
    | some r => simp [callbackEvents]
    | none => cases m <;> cases t.defaultHandler_ <;> simp [callbackEvents]
  · simp [callbackEvents]

theorem dispatchPost_callbacks (cb : Callbacks) (t : SerialTerminal) (cs : IStringStream) :
    callbackEvents (dispatchPost cb t cs).2 = (dispatchPost cb t cs).2 := by
  unfold dispatchPost
  cases t.postCommandHandler_ <;> simp [callbackEvents]

theorem dispatchLine_callbacks (cb : Callbacks) (s : LoopState) :
    callbackEvents (dispatchLine cb s).2 =
      (dispatchCommand cb s.term.clearStream s.matched
          ((s.term.clearStream.commandStream.str s.term.rxBuffer_).extract s.command).2
          ((s.term.clearStream.commandStream.str s.term.rxBuffer_).extract s.command).1).2.2 ++
        (dispatchPost cb s.term.clearStream
          (dispatchCommand cb s.term.clearStream s.matched
            ((s.term.clearStream.commandStream.str s.term.rxBuffer_).extract s.command).2
            ((s.term.clearStream.commandStream.str s.term.rxBuffer_).extract s.command).1).1).2 := by
  simp only [dispatchLine, callbackEvents_append, dispatchCommand_callbacks,
    dispatchPost_callbacks]
  split_ifs <;> simp [callbackEvents, SerialTerminal.clearStream]

theorem dispatchLine_events (cb : Callbacks) (s : LoopState) :
    (dispatchLine cb s).2 =
      (if s.term.doCharEcho then [Event.println] else []) ++
        callbackEvents (dispatchLine cb s).2 := by
  rw [dispatchLine_callbacks]
  simp [dispatchLine, SerialTerminal.clearStream]

theorem readLoop_terminator (cb : Callbacks) (t : SerialTerminal) (before after : List Byte) :
    readLoop cb (before ++ t.newlineChar_ :: after) (LoopState.entry t) =
      ((readLoop cb after (dispatchLine cb (readLoop cb before (LoopState.entry t)).1).1).1,
        (readLoop cb before (LoopState.entry t)).2 ++
          ((dispatchLine cb (readLoop cb before (LoopState.entry t)).1).2 ++
            (readLoop cb after (dispatchLine cb (readLoop cb before (LoopState.entry t)).1).1).2)) := by
  obtain ⟨-, h2, -, -, -⟩ := readLoop_config cb before (LoopState.entry t)
  have h2 : (readLoop cb before (LoopState.entry t)).1.term.newlineChar_ = t.newlineChar_ := h2
  rw [readLoop_append]
  simp [readLoop, step, h2]

/-! ## Claims on line editing, echo and the post-command handler -/

/-- C6: on input without the terminator character `readSerial` invokes no
callback at all (neither a command handler, nor the default handler, nor the
post-command handler), and the line buffer afterwards is the left fold of the
input over the previous buffer with the editing rule of the specification
(printable appended, backspace/delete removes the last character if there is
one, anything else ignored). -/
theorem readSerial_without_terminator (cb : Callbacks) (t : SerialTerminal) (rx : List Byte)
    (h : t.newlineChar_ ∉ rx) :
    callbackEvents (readSerial cb t rx).2 = [] ∧
      (readSerial cb t rx).1.rxBuffer_ = rx.foldl editKey t.rxBuffer_ :=
  readLoop_no_terminator cb rx (LoopState.entry t) h

/-- Witness for C6: `"ab"`, backspace, a tab, `"c"`, delete, delete, delete on
a terminal with terminator newline leaves no callback event and an empty
buffer; `"xy"` and an escape byte leaves `"xy"`. -/
theorem readSerial_without_terminator_witness :
    (callbackEvents (readSerial idle (SerialTerminal.new 10 true) [97, 98, 8, 9, 99, 127, 127, 127]).2 = [] ∧
      (readSerial idle (SerialTerminal.new 10 true) [97, 98, 8, 9, 99, 127, 127, 127]).1.rxBuffer_ =
        [97, 98, 8, 9, 99, 127, 127, 127].foldl editKey (SerialTerminal.new 10 true).rxBuffer_) ∧
    [97, 98, 8, 9, 99, 127, 127, 127].foldl editKey (SerialTerminal.new 10 true).rxBuffer_ = [] ∧
    [120, 121, 27].foldl editKey [] = [120, 121] :=
  ⟨readSerial_without_terminator idle (SerialTerminal.new 10 true) [97, 98, 8, 9, 99, 127, 127, 127]
    (by decide), by decide, by decide⟩

/-- C7: the writes of `readSerial` to the output sink are none when echo is
off; when echo is on they are the concatenation, in input order, of one
contribution per input byte: `println` for the terminator, the three bytes
backspace, space, backspace for a backspace/delete that finds the buffer
non-empty, the byte itself for a printable byte, nothing otherwise.  For a
terminator at any position of the input, its `println` is the first event of
its line, before the callbacks of that line, and the step that emits it is
the one that ends with the buffer reset. -/
theorem readSerial_echo (cb : Callbacks) (t : SerialTerminal) (rx before after : List Byte) :
    sinkEvents (readSerial cb t rx).2 =
      (if t.doCharEcho then echoSpec t.newlineChar_ t.rxBuffer_ rx else []) ∧
    (readSerial cb t (before ++ t.newlineChar_ :: after)).2 =
      (readLoop cb before (LoopState.entry t)).2 ++
        ((if t.doCharEcho then [Event.println] else []) ++
          callbackEvents (dispatchLine cb (readLoop cb before (LoopState.entry t)).1).2) ++
        (readLoop cb after (dispatchLine cb (readLoop cb before (LoopState.entry t)).1).1).2 ∧
    (dispatchLine cb (readLoop cb before (LoopState.entry t)).1).1.term.rxBuffer_ = [] := by
  refine ⟨readLoop_sink cb rx (LoopState.entry t), ?_, ?_⟩
  · obtain ⟨-, -, h3, -, -⟩ := readLoop_config cb before (LoopState.entry t)
    have h3 : (readLoop cb before (LoopState.entry t)).1.term.doCharEcho = t.doCharEcho := h3
    have e := dispatchLine_events cb (readLoop cb before (LoopState.entry t)).1
    rw [h3] at e
    simp only [readSerial, readLoop_terminator]
    rw [← e, List.append_assoc]
  · simp [dispatchLine, SerialTerminal.clearBuffer]

/-- C10: the post-command handler invocations of one `readSerial` call are
exactly one invocation of the handler that is set per terminator byte of the
input, and none when no post-command handler is set. -/
theorem readSerial_post_per_terminator (cb : Callbacks) (t : SerialTerminal) (rx : List Byte) :
    postCalls (readSerial cb t rx).2 =
      match t.postCommandHandler_ with
      | some p => List.replicate (rx.count t.newlineChar_) p
      | none => [] :=
  readLoop_postCalls cb rx (LoopState.entry t)

/-! ## Registry scan and dispatch of one line -/

theorem scan_some (w : List Byte) (l : List SerialTerminalCallback) (k n : Nat) (f : FnPtr)
    (h : scan w l k = some (n, f)) :
    ∃ i, n = k + i ∧ l[i]? = some { command := w, function := f } ∧
      ∀ j, j < i → ∀ e, l[j]? = some e → e.command ≠ w := by
  induction l generalizing k with
  | nil => simp [scan] at h
  | cons stc rest ih =>
    unfold scan at h
    by_cases hc : w = stc.command
    · simp only [hc, if_true, Option.some.injEq, Prod.mk.injEq] at h
      obtain ⟨h1, h2⟩ := h
      refine ⟨0, by omega, ?_, by intro j hj; omega⟩
      simp [hc, ← h2]
    · simp only [hc, if_false] at h
      obtain ⟨i, h1, h2, h3⟩ := ih (k + 1) h
      refine ⟨i + 1, by omega, by simpa using h2, ?_⟩
      intro j hj e he
      cases j with
      | zero =>
        simp only [List.getElem?_cons_zero, Option.some.injEq] at he
        subst he
        exact fun e => hc e.symm
      | succ j => exact h3 j (by omega) e (by simpa using he)

theorem scan_none (w : List Byte) (l : List SerialTerminalCallback) (k : Nat)
    (h : scan w l k = none) : ∀ e ∈ l, e.command ≠ w := by
  induction l generalizing k with
  | nil => simp
  | cons stc rest ih =>
    unfold scan at h
    by_cases hc : w = stc.command
    · simp [hc] at h
    · simp only [hc, if_false] at h
      intro e he
      rcases List.mem_cons.mp he with rfl | he
      · exact fun e => hc e.symm
      · exact ih (k + 1) h e he

theorem fresh_of_clearStream (t : SerialTerminal) :
    t.clearStream.commandStream.str t.rxBuffer_ = freshStream t.rxBuffer_ := by
  simp [SerialTerminal.clearStream, IStringStream.str, IStringStream.clear, freshStream]

theorem dispatchLine_matched (cb : Callbacks) (s : LoopState) (w : List Byte)
    (hw : (tokens s.term.rxBuffer_).head? = some w)
    (hreg : ∃ e ∈ s.term.commandList_, e.command = w) :
    ∃ i f cs,
      s.term.commandList_[i]? = some { command := w, function := f } ∧
      (∀ j, j < i → ∀ e, s.term.commandList_[j]? = some e → e.command ≠ w) ∧
      tokens cs.rest = (tokens s.term.rxBuffer_).tail ∧
      callbackEvents (dispatchLine cb s).2 =
        Event.command i f cs ::
          (match s.term.postCommandHandler_ with
            | some p => [Event.post p (cb.command f cs)]
            | none => []) := by
  cases htok : tokens s.term.rxBuffer_ with
  | nil => simp [htok] at hw
  | cons w0 ws =>
    simp only [htok, List.head?_cons, Option.some.injEq] at hw
    subst hw
    obtain ⟨e1, e2, -, -, sp, -, hdec⟩ :=
      extract_some (freshStream s.term.rxBuffer_) s.command w0 ws
        (freshStream_consistent _) (by simpa [freshStream] using htok)
    have hne : w0 ≠ [] := by
      intro h0
      have : [] ∈ tokens s.term.rxBuffer_ := by rw [htok, h0]; simp
      simp [tokens] at this
    cases hsc : scan w0 s.term.commandList_ 0 with
    | none =>
      obtain ⟨e, he, hew⟩ := hreg
      exact absurd hew (scan_none _ _ _ hsc e he)
    | some r =>
      obtain ⟨n, f⟩ := r
      obtain ⟨i, hi, hget, hfirst⟩ := scan_some _ _ _ _ _ hsc
      have hi : n = i := by omega
      subst hi
      refine ⟨n, f, ((freshStream s.term.rxBuffer_).extract s.command).1, hget, hfirst, e2, ?_⟩
      rw [dispatchLine_callbacks, fresh_of_clearStream, e1]
      have hl : s.term.clearStream.commandList_ = s.term.commandList_ := rfl
      have hp : s.term.clearStream.postCommandHandler_ = s.term.postCommandHandler_ := rfl
      simp only [dispatchCommand, hne, ne_eq, not_false_eq_true, if_true, hl, hsc, dispatchPost, hp]
      cases s.term.postCommandHandler_ <;> simp

theorem dispatchCommand_command_event (cb : Callbacks) (t : SerialTerminal) (m : Bool)
    (w : List Byte) (cs cs1 : IStringStream) (k : Nat) (f : FnPtr)
    (h : Event.command k f cs1 ∈ (dispatchCommand cb t m w cs).2.2) :
    t.commandList_[k]? = some { command := w, function := f } ∧
      ∀ j, j < k → ∀ e, t.commandList_[j]? = some e → e.command ≠ w := by
  unfold dispatchCommand at h
  by_cases hw : w = []
  · simp [hw] at h
  · simp only [ne_eq, hw, not_false_eq_true, if_true] at h
    cases hsc : scan w t.commandList_ 0 with
    | none =>
      rw [hsc] at h
      cases m <;> cases hd : t.defaultHandler_ <;> rw [hd] at h <;> simp at h
    | some r =>
      obtain ⟨n, g⟩ := r
      rw [hsc] at h
      simp only [List.mem_singleton, Event.command.injEq] at h
      obtain ⟨rfl, rfl, -⟩ := h
      obtain ⟨i, hi, hget, hfirst⟩ := scan_some _ _ _ _ _ hsc
      have hi : k = i := by omega
      subst hi
      exact ⟨hget, hfirst⟩

theorem step_command_event (cb : Callbacks) (c : Byte) (s : LoopState) (cs1 : IStringStream)
    (k : Nat) (f : FnPtr) (h : Event.command k f cs1 ∈ (step cb c s).2) :
    ∃ w, s.term.commandList_[k]? = some { command := w, function := f } ∧
      ∀ j, j < k → ∀ e, s.term.commandList_[j]? = some e → e.command ≠ w := by
  unfold step at h
  by_cases hc : c = s.term.newlineChar_
  · simp only [hc, if_true, dispatchLine, List.mem_append] at h
    rcases h with (h | h) | h
    · split_ifs at h <;> simp at h
    · exact ⟨_, dispatchCommand_command_event cb _ _ _ _ _ _ _ h⟩
    · unfold dispatchPost at h
      cases hp : s.term.clearStream.postCommandHandler_ <;> rw [hp] at h <;> simp at h
  · simp only [hc, if_false] at h
    split_ifs at h <;> simp at h

theorem readLoop_command_event (cb : Callbacks) (rx : List Byte) (s : LoopState)
    (cs1 : IStringStream) (k : Nat) (f : FnPtr)
    (h : Event.command k f cs1 ∈ (readLoop cb rx s).2) :
    ∃ w, s.term.commandList_[k]? = some { command := w, function := f } ∧
      ∀ j, j < k → ∀ e, s.term.commandList_[j]? = some e → e.command ≠ w := by
  induction rx generalizing s with
  | nil => simp [readLoop] at h
  | cons c rx ih =>
    simp only [readLoop, List.mem_append] at h
    rcases h with h | h
    · exact step_command_event cb c s cs1 k f h
    · obtain ⟨h1, -, -, -, -⟩ := step_config cb c s
      have := ih (step cb c s).1 h
      rwa [h1] at this

/-! ## Claims on dispatch -/

/-- C1: a terminated line, anywhere in the input of one `readSerial` call,
whose first token is a registered command name makes `readSerial` call,
for that line, the handler of the first registry entry of that name exactly
once, not the default handler, and then the post-command handler (when set)
exactly once; these calls come after every callback of the earlier bytes and
before every callback of the later bytes.  The handler finds the stream
positioned behind the command word. -/
theorem readSerial_dispatches_registered (cb : Callbacks) (t : SerialTerminal)
    (before after w : List Byte)
    (hw : (tokens (loopAfter cb t before).term.rxBuffer_).head? = some w)
    (hreg : ∃ e ∈ t.commandList_, e.command = w) :
    ∃ i f cs,
      t.commandList_[i]? = some { command := w, function := f } ∧
      (∀ j, j < i → ∀ e, t.commandList_[j]? = some e → e.command ≠ w) ∧
      tokens cs.rest = (tokens (loopAfter cb t before).term.rxBuffer_).tail ∧
      callbackEvents (readSerial cb t (before ++ t.newlineChar_ :: after)).2 =
        callbackEvents (readLoop cb before (LoopState.entry t)).2 ++
          (Event.command i f cs ::
            (match t.postCommandHandler_ with
              | some p => [Event.post p (cb.command f cs)]
              | none => [])) ++
          callbackEvents (readLoop cb after (dispatchLine cb (loopAfter cb t before)).1).2 := by
  obtain ⟨h1, -, -, h4, -⟩ := readLoop_config cb before (LoopState.entry t)
  have h1 : (loopAfter cb t before).term.commandList_ = t.commandList_ := h1
  have h4 : (loopAfter cb t before).term.postCommandHandler_ = t.postCommandHandler_ := h4
  obtain ⟨i, f, cs, k1, k2, k3, k4⟩ :=
    dispatchLine_matched cb (loopAfter cb t before) w hw (by rwa [h1])
  rw [h1] at k1 k2
  rw [h4] at k4
  refine ⟨i, f, cs, k1, k2, k3, ?_⟩
  simp only [readSerial, readLoop_terminator, callbackEvents_append]
  rw [← k4]
  simp [loopAfter]

/-- Witness for C1: `"PING x"` typed after an earlier line `"A"` and followed
by a line `"B"`, on the example terminal. -/
theorem readSerial_dispatches_registered_witness :
    ∃ i f cs,
      pingTerminal.commandList_[i]? = some { command := bytes "PING", function := f } ∧
      (∀ j, j < i → ∀ e, pingTerminal.commandList_[j]? = some e → e.command ≠ bytes "PING") ∧
      tokens cs.rest = (tokens (loopAfter idle pingTerminal (bytes "A\nPING x")).term.rxBuffer_).tail ∧
      callbackEvents (readSerial idle pingTerminal
          (bytes "A\nPING x" ++ pingTerminal.newlineChar_ :: bytes "B\n")).2 =
        callbackEvents (readLoop idle (bytes "A\nPING x") (LoopState.entry pingTerminal)).2 ++
          (Event.command i f cs ::
            (match pingTerminal.postCommandHandler_ with
              | some p => [Event.post p (idle.command f cs)]
              | none => [])) ++
          callbackEvents (readLoop idle (bytes "B\n")
            (dispatchLine idle (loopAfter idle pingTerminal (bytes "A\nPING x"))).1).2 :=
  readSerial_dispatches_registered idle pingTerminal (bytes "A\nPING x") (bytes "B\n")
    (bytes "PING") (by decide) (by decide)

theorem firstOfName_of_scan (l : List SerialTerminalCallback) (k : Nat) (f : FnPtr)
    (w : List Byte) (h1 : l[k]? = some { command := w, function := f })
    (h2 : ∀ j, j < k → ∀ e, l[j]? = some e → e.command ≠ w) : firstOfName l k f = true := by
  unfold firstOfName
  rw [h1]
  simp only [beq_self_eq_true, Bool.true_and, List.all_eq_true, bne_iff_ne, ne_eq]
  intro e he
  obtain ⟨j, hj⟩ := List.mem_iff_getElem?.mp he
  rw [List.getElem?_take] at hj
  by_cases hjk : j < k
  · simp only [hjk, if_true] at hj
    exact h2 j hjk e hj
  · simp [hjk] at hj

/-- C4: when two registry entries carry the same name, no input makes
`readSerial` call the later one: every command-handler call of a trace is the
call of an entry that is the first of its name in registration order (and
passes that entry's function pointer), so it is never entry `j`. -/
theorem readSerial_first_registered_wins (cb : Callbacks) (t : SerialTerminal) (rx : List Byte)
    (i j : Nat) (ei ej : SerialTerminalCallback)
    (hi : t.commandList_[i]? = some ei) (hj : t.commandList_[j]? = some ej)
    (hij : i < j) (hname : ej.command = ei.command) :
    (commandCalls (readSerial cb t rx).2).all
      (fun c => c.1 != j && firstOfName t.commandList_ c.1 c.2) = true := by
  simp only [List.all_eq_true, Bool.and_eq_true, bne_iff_ne, ne_eq]
  rintro ⟨k, f⟩ hc
  simp only [commandCalls, List.mem_filterMap] at hc
  obtain ⟨e, he, hm⟩ := hc
  cases e with
  | command k1 f1 cs =>
    simp only [Option.some.injEq, Prod.mk.injEq] at hm
    obtain ⟨rfl, rfl⟩ := hm
    obtain ⟨w, h1, h2⟩ := readLoop_command_event cb rx (LoopState.entry t) cs k1 f1 he
    have h1 : t.commandList_[k1]? = some { command := w, function := f1 } := h1
    refine ⟨?_, firstOfName_of_scan _ _ _ w h1 h2⟩
    rintro rfl
    rw [hj] at h1
    have hw : ej.command = w := by
      have := Option.some.inj h1
      rw [this]
    exact h2 i hij ei hi (hname.symm.trans hw)
  | println => simp at hm
  | print _ => simp at hm
  | default _ _ _ => simp at hm
  | post _ _ => simp at hm

/-! ## Token cursor -/

theorem extract_consistent (s : IStringStream) (target : List Byte) (hs : Consistent s) :
    Consistent (s.extract target).1 := by
  cases htok : tokens s.rest with
  | nil =>
    obtain ⟨-, h2, -⟩ := extract_none s target hs htok
    exact fun _ => h2
  | cons w ws =>
    obtain ⟨-, -, h3, h4, -⟩ := extract_some s target w ws hs htok
    intro hg
    simp only [IStringStream.good, h3, h4, Bool.not_false, Bool.and_true] at hg
    simpa using hg

theorem getNextSeq_tokens (n : Nat) (cs : IStringStream) (hs : Consistent cs) :
    getNextSeq n cs = (List.range n).map (fun i => (tokens cs.rest).getD i []) := by
  induction n generalizing cs with
  | zero => simp [getNextSeq]
  | succ n ih =>
    have hc : Consistent (getNext cs).1 := extract_consistent cs [] hs
    rw [getNextSeq, ih _ hc, List.range_succ_eq_map]
    cases htok : tokens cs.rest with
    | nil =>
      obtain ⟨h1, h2, -⟩ := extract_none cs [] hs htok
      simp [getNext, h1, h2, tokens_nil, Function.comp_def]
    | cons w ws =>
      obtain ⟨h1, h2, -⟩ := extract_some cs [] w ws hs htok
      simp [getNext, h1, h2, Function.comp_def]

/-- The tokens of a line that has at least one: the command word is the first
token and `n` successive `getNext()` calls return the following tokens in
order, then the empty string. -/
theorem line_tokens (line target w : List Byte) (ws : List (List Byte)) (n : Nat)
    (h : tokens line = w :: ws) :
    ((freshStream line).extract target).2 = w ∧
      getNextSeq n ((freshStream line).extract target).1 =
        (List.range n).map (fun i => ws.getD i []) := by
  obtain ⟨h1, h2, -⟩ :=
    extract_some (freshStream line) target w ws (freshStream_consistent line) h
  refine ⟨h1, ?_⟩
  rw [getNextSeq_tokens n _ (extract_consistent _ target (freshStream_consistent line)), h2]

theorem extract_atDelimiter (cs : IStringStream) (target : List Byte)
    (h : cs.good = true ∧ cs.rest.dropWhile isspace ≠ []) :
    atDelimiter (cs.extract target).1.rest = true ∧
      ∃ sp, (∀ x ∈ sp, isspace x = true) ∧
        cs.rest = sp ++ (cs.extract target).2 ++ (cs.extract target).1.rest := by
  obtain ⟨hg, hd⟩ := h
  unfold IStringStream.extract
  simp only [hg, if_true]
  cases hd2 : cs.rest.dropWhile isspace with
  | nil => exact absurd hd2 hd
  | cons c l =>
    refine ⟨?_, cs.rest.takeWhile isspace, fun x hx => List.mem_takeWhile_imp hx, ?_⟩
    · dsimp only
      rcases dropWhile_nonspace_head (c :: l) with h0 | ⟨c1, l1, h1, h2⟩
      · rw [h0]; rfl
      · rw [h1]; exact h2
    · dsimp only
      rw [List.append_assoc, List.takeWhile_append_dropWhile, ← hd2,
        List.takeWhile_append_dropWhile]

theorem getNext_nonempty (cs : IStringStream) (h : (getNext cs).2 ≠ []) :
    cs.good = true ∧ cs.rest.dropWhile isspace ≠ [] := by
  unfold getNext IStringStream.extract at h
  by_cases hg : cs.good = true
  · refine ⟨hg, fun hd => ?_⟩
    simp [hg, hd] at h
  · simp [hg] at h

/-! ## Claims on duplicates, tokens and the remainder -/

/-- Witness for C4: on the example terminal entries 0 and 1 are both named
`PING`; on `"PING\nPING x\n"` only entry 0 is called, twice. -/
theorem readSerial_first_registered_wins_witness :
    (commandCalls (readSerial idle pingTerminal (bytes "PING\nPING x\n")).2).all
        (fun c => c.1 != 1 && firstOfName pingTerminal.commandList_ c.1 c.2) = true ∧
      commandCalls (readSerial idle pingTerminal (bytes "PING\nPING x\n")).2 = [(0, 1), (0, 1)] :=
  ⟨readSerial_first_registered_wins idle pingTerminal (bytes "PING\nPING x\n") 0 1
    { command := bytes "PING", function := 1 } { command := bytes "PING", function := 2 }
    (by decide) (by decide) (by decide) (by decide), by decide⟩

/-- C2, evaluated where it fails: on the example terminal (default handler 7
set) the input `"PING\nFOO\n"` calls `PING` and, for each of the two lines,
the post-command handler, but never the default handler for the unmatched
line `FOO`, since `matched` is still true from the first line; the same line
alone, `"FOO\n"`, does reach the default handler. -/
theorem readSerial_unmatched_after_matched :
    callbackEvents (readSerial idle pingTerminal (bytes "PING\nFOO\n")).2 =
        [Event.command 0 1 { rest := [], eofbit := true, failbit := false },
          Event.post 9 { rest := [], eofbit := true, failbit := false },
          Event.post 9 { rest := [], eofbit := true, failbit := false }] ∧
      callbackEvents (readSerial idle pingTerminal (bytes "FOO\n")).2 =
        [Event.default 7 (bytes "FOO") { rest := [], eofbit := true, failbit := false },
          Event.post 9 { rest := [], eofbit := true, failbit := false }] := by
  decide

/-- C3, evaluated where it fails: on the example terminal the input
`"PING\n\n"` calls the `PING` handler a second time for the empty second
line, and `"FOO\n  \n"` calls the default handler a second time for the
all-blank second line: the failed extraction leaves the previous command
word in `command`. -/
theorem readSerial_blank_after_command :
    callbackEvents (readSerial idle pingTerminal (bytes "PING\n\n")).2 =
        [Event.command 0 1 { rest := [], eofbit := true, failbit := false },
          Event.post 9 { rest := [], eofbit := true, failbit := false },
          Event.command 0 1 { rest := [], eofbit := true, failbit := true },
          Event.post 9 { rest := [], eofbit := true, failbit := true }] ∧
      callbackEvents (readSerial idle pingTerminal (bytes "FOO\n  \n")).2 =
        [Event.default 7 (bytes "FOO") { rest := [], eofbit := true, failbit := false },
          Event.post 9 { rest := [], eofbit := true, failbit := false },
          Event.default 7 (bytes "FOO") { rest := [], eofbit := true, failbit := true },
          Event.post 9 { rest := [], eofbit := true, failbit := true }] := by
  decide

/-- C5, evaluated where it fails: after the line `"FOO a"` the empty second
line of `"FOO a\n\n"` has no token, yet the command word `readSerial` works
with for it is `FOO`, taken over from the line before, and the default
handler runs for it with that word and an exhausted stream. -/
theorem readSerial_stale_command_word :
    (loopAfter idle pingTerminal (bytes "FOO a\n")).term.rxBuffer_ = [] ∧
      tokens (loopAfter idle pingTerminal (bytes "FOO a\n")).term.rxBuffer_ = [] ∧
      (dispatchLine idle (loopAfter idle pingTerminal (bytes "FOO a\n"))).1.command = bytes "FOO" ∧
      callbackEvents (dispatchLine idle (loopAfter idle pingTerminal (bytes "FOO a\n"))).2 =
        [Event.default 7 (bytes "FOO") { rest := [], eofbit := true, failbit := true },
          Event.post 9 { rest := [], eofbit := true, failbit := true }] ∧
      getNextSeq 2 { rest := [], eofbit := true, failbit := true } = [[], []] := by
  decide

set_option maxRecDepth 100000 in
/-- C8, evaluated where it fails: for the line `"A b"` the remainder behind
the command word is `" b"`; with the 256 bytes of `data` holding 0x55 on
entry and a NUL behind them, `getRemaining()` returns `" b"` followed by the
254 bytes 0x55 that `readsome` did not overwrite.  On the line `"A"`, where
the remainder is empty, it returns the 256 bytes 0x55. -/
theorem getRemaining_reads_on :
    ((freshStream (bytes "A b")).extract []).1.rest = bytes " b" ∧
      (getRemaining ((freshStream (bytes "A b")).extract []).1
          (List.replicate 256 0x55 ++ [0])).2 = bytes " b" ++ List.replicate 254 0x55 ∧
      ((freshStream (bytes "A")).extract []).1.rest = [] ∧
      (getRemaining ((freshStream (bytes "A")).extract []).1
          (List.replicate 256 0x55 ++ [0])).2 = List.replicate 256 0x55 := by
  decide

/-- C9 as stated fails: on the line `"PING x"` the handler finds the stream
at `" x"`, and after `getNext()` has returned `"A"` from `"A b"` the
remainder is `" b"`; both start with the blank that ended the token. -/
theorem cursor_not_past_whitespace :
    callbackEvents (readSerial idle pingTerminal (bytes "PING x\n")).2 =
        [Event.command 0 1 { rest := bytes " x", eofbit := false, failbit := false },
          Event.post 9 { rest := bytes " x", eofbit := false, failbit := false }] ∧
      pastWhitespace (bytes " x") = false ∧
      (getNext (freshStream (bytes "A b"))).2 = bytes "A" ∧
      (getNext (freshStream (bytes "A b"))).1.rest = bytes " b" ∧
      pastWhitespace (getNext (freshStream (bytes "A b"))).1.rest = false := by
  decide

/-- C9, amended: when the command-word extraction finds a token in the line,
and when `getNext()` returns a non-empty token, the cursor stands directly
behind the last character of that token: what was read is whitespace followed
by the token, and the unread remainder is empty or starts with the whitespace
character that ended the token. -/
theorem cursor_stops_behind_token (line target : List Byte) (cs : IStringStream)
    (hline : tokens line ≠ []) (htok : (getNext cs).2 ≠ []) :
    (atDelimiter ((freshStream line).extract target).1.rest = true ∧
      ∃ sp, (∀ x ∈ sp, isspace x = true) ∧
        line = sp ++ ((freshStream line).extract target).2 ++
          ((freshStream line).extract target).1.rest) ∧
    (atDelimiter (getNext cs).1.rest = true ∧
      ∃ sp, (∀ x ∈ sp, isspace x = true) ∧
        cs.rest = sp ++ (getNext cs).2 ++ (getNext cs).1.rest) := by
  refine ⟨?_, extract_atDelimiter cs [] (getNext_nonempty cs htok)⟩
  have hd : (freshStream line).rest.dropWhile isspace ≠ [] := by
    intro h0
    apply hline
    rw [← tokens_dropWhile_space]
    show tokens ((freshStream line).rest.dropWhile isspace) = []
    rw [h0, tokens_nil]
  exact extract_atDelimiter (freshStream line) target ⟨rfl, hd⟩

/-- Witness for C9 amended: the line `"  PING  x"` and a stream at `" b c"`. -/
theorem cursor_stops_behind_token_witness :
    (atDelimiter ((freshStream (bytes "  PING  x")).extract []).1.rest = true ∧
      ∃ sp, (∀ x ∈ sp, isspace x = true) ∧
        bytes "  PING  x" = sp ++ ((freshStream (bytes "  PING  x")).extract []).2 ++
          ((freshStream (bytes "  PING  x")).extract []).1.rest) ∧
    (atDelimiter (getNext (freshStream (bytes " b c"))).1.rest = true ∧
      ∃ sp, (∀ x ∈ sp, isspace x = true) ∧
        (freshStream (bytes " b c")).rest = sp ++ (getNext (freshStream (bytes " b c"))).2 ++
          (getNext (freshStream (bytes " b c"))).1.rest) :=
  cursor_stops_behind_token (bytes "  PING  x") [] (freshStream (bytes " b c"))
    (by decide) (by decide)

/-! ## Claims on the idle call, construction and registration -/

/-- C11: `readSerial` with no byte available calls no handler, writes nothing
and returns the object as it was (line buffer, token stream, registry,
terminator, echo flag and both handlers included); so any number of such
calls leaves the object as it was. -/
theorem readSerial_no_input (cb : Callbacks) (t : SerialTerminal) (n : Nat) :
    readSerial cb t [] = (t, []) ∧
      (drain cb 1 [] (LoopState.entry t)).state.term = t ∧
      (drain cb 1 [] (LoopState.entry t)).events = [] ∧
      (fun u => (readSerial cb u []).1)^[n] t = t := by
  refine ⟨rfl, rfl, rfl, ?_⟩
  induction n with
  | zero => rfl
  | succ n ih => rw [Function.iterate_succ_apply]; exact ih

/-- C12, evaluated where it fails: the constructor gives `doCharEcho` no
value, so a terminal constructed with default arguments in storage that held
a non-zero byte has terminator newline, no handlers, an empty registry and an
empty line buffer, but echo enabled: `readSerial` on `"a"` writes `a` back. -/
theorem fresh_terminal_echo_indeterminate :
    (SerialTerminal.newDefault true).newlineChar_ = 10 ∧
      (SerialTerminal.newDefault true).defaultHandler_ = none ∧
      (SerialTerminal.newDefault true).postCommandHandler_ = none ∧
      (SerialTerminal.newDefault true).commandList_ = [] ∧
      (SerialTerminal.newDefault true).rxBuffer_ = [] ∧
      (SerialTerminal.newDefault true).doCharEcho = true ∧
      sinkEvents (readSerial idle (SerialTerminal.newDefault true) (bytes "a")).2 =
        [Event.print (bytes "a")] ∧
      sinkEvents (readSerial idle (SerialTerminal.newDefault false) (bytes "a")).2 = [] := by
  decide

theorem readLoop_buffer (cb : Callbacks) (rx : List Byte) (s : LoopState) :
    (readLoop cb rx s).1.term.rxBuffer_ =
      rx.foldl (bufferAfter s.term.newlineChar_) s.term.rxBuffer_ := by
  induction rx generalizing s with
  | nil => rfl
  | cons c rx ih =>
    obtain ⟨-, h2, -, -, -⟩ := step_config cb c s
    simp only [readLoop, ih, h2, step_buffer, List.foldl_cons]

theorem editKey_all (p : Byte → Bool) (buf : List Byte) (c : Byte)
    (hc : (0x20 ≤ c.val ∧ c.val ≤ 0x7E) → p c = true) (hb : buf.all p = true) :
    (editKey buf c).all p = true := by
  unfold editKey
  split_ifs with h1 h2 h3
  · simp only [List.all_append, hb, List.all_cons, hc h1, List.all_nil, Bool.and_self]
  · rfl
  · simp only [List.all_eq_true] at hb ⊢
    exact fun x hx => hb x (List.mem_of_mem_dropLast hx)
  · exact hb

theorem foldl_bufferAfter_all (p : Byte → Bool) (nl : Byte)
    (hp : ∀ c, c ≠ nl → (0x20 ≤ c.val ∧ c.val ≤ 0x7E) → p c = true)
    (rx buf : List Byte) (hb : buf.all p = true) :
    (rx.foldl (bufferAfter nl) buf).all p = true := by
  induction rx generalizing buf with
  | nil => exact hb
  | cons c rx ih =>
    rw [List.foldl_cons]
    apply ih
    unfold bufferAfter
    split_ifs with h
    · rfl
    · exact editKey_all p buf c (hp c h) hb

theorem run_buffer_all (cb : Callbacks) (p : Byte → Bool) (t : SerialTerminal)
    (hp : ∀ c, c ≠ t.newlineChar_ → (0x20 ≤ c.val ∧ c.val ≤ 0x7E) → p c = true)
    (hb : t.rxBuffer_.all p = true) (call : Call) :
    (call.run cb t).newlineChar_ = t.newlineChar_ ∧ (call.run cb t).rxBuffer_.all p = true := by
  cases call with
  | readSerial rx =>
    refine ⟨(readLoop_config cb rx (LoopState.entry t)).2.1, ?_⟩
    show ((readLoop cb rx (LoopState.entry t)).1.term.rxBuffer_).all p = true
    rw [readLoop_buffer]
    exact foldl_bufferAfter_all p _ hp rx _ hb
  | clearBuffer => exact ⟨rfl, rfl⟩
  | addCommand _ _ => exact ⟨rfl, hb⟩
  | setDefaultHandler _ => exact ⟨rfl, hb⟩
  | setSerialEcho _ => exact ⟨rfl, hb⟩
  | setPostCommandHandler _ => exact ⟨rfl, hb⟩
  | clearStream => exact ⟨rfl, hb⟩
  | getNext => exact ⟨rfl, hb⟩
  | getRemaining _ => exact ⟨rfl, hb⟩

theorem runCalls_buffer_all (cb : Callbacks) (p : Byte → Bool) (calls : List Call)
    (t : SerialTerminal)
    (hp : ∀ c, c ≠ t.newlineChar_ → (0x20 ≤ c.val ∧ c.val ≤ 0x7E) → p c = true)
    (hb : t.rxBuffer_.all p = true) :
    (runCalls cb t calls).newlineChar_ = t.newlineChar_ ∧
      (runCalls cb t calls).rxBuffer_.all p = true := by
  induction calls generalizing t with
  | nil => exact ⟨rfl, hb⟩
  | cons call calls ih =>
    obtain ⟨h1, h2⟩ := run_buffer_all cb p t hp hb call
    obtain ⟨k1, k2⟩ := ih (call.run cb t) (by rw [h1]; exact hp) h2
    exact ⟨k1.trans h1, k2⟩

theorem lineChar_of_printable (c : Byte) (h : 0x20 ≤ c.val ∧ c.val ≤ 0x7E) :
    lineChar c = true := by
  simp only [lineChar, isprint, isspace, Bool.and_eq_true, Bool.or_eq_true, decide_eq_true_eq,
    Bool.not_eq_true', Bool.or_eq_false_iff, Bool.and_eq_false_iff, decide_eq_false_iff_not,
    beq_iff_eq]
  refine ⟨h, ?_⟩
  by_cases h32 : c.val = 0x20
  · right
    exact Fin.ext h32
  · left
    exact ⟨h32, by omega⟩

/-- C14: after `readSerial` the line buffer holds what the bytes behind the
last terminator of the input accumulate to from the empty buffer (append
printable, backspace/delete removes the last character, others ignored),
whatever came before that terminator; it is empty when the input ends with
the terminator; and on input without a terminator it is the accumulation over
the previous buffer. -/
theorem readSerial_buffer_after_last_terminator (cb : Callbacks) (t : SerialTerminal)
    (before after : List Byte) (h : t.newlineChar_ ∉ after) :
    (readSerial cb t (before ++ t.newlineChar_ :: after)).1.rxBuffer_ = after.foldl editKey [] ∧
      (readSerial cb t (before ++ [t.newlineChar_])).1.rxBuffer_ = [] ∧
      (readSerial cb t after).1.rxBuffer_ = after.foldl editKey t.rxBuffer_ := by
  have key : ∀ rest : List Byte, t.newlineChar_ ∉ rest →
      (readSerial cb t (before ++ t.newlineChar_ :: rest)).1.rxBuffer_ = rest.foldl editKey [] := by
    intro rest hrest
    simp only [readSerial, readLoop_terminator]
    obtain ⟨-, h2, -, -, -⟩ := readLoop_config cb before (LoopState.entry t)
    obtain ⟨-, k2, -, -, -⟩ := dispatchLine_config cb (readLoop cb before (LoopState.entry t)).1
    have hnl : (dispatchLine cb (readLoop cb before (LoopState.entry t)).1).1.term.newlineChar_ =
        t.newlineChar_ := k2.trans h2
    have hbuf : (dispatchLine cb (readLoop cb before (LoopState.entry t)).1).1.term.rxBuffer_ =
        [] := by
      simp [dispatchLine, SerialTerminal.clearBuffer]
    have := (readLoop_no_terminator cb rest _ (by rw [hnl]; exact hrest)).2
    rw [this, hbuf]
  exact ⟨key after h, key [] (by simp), (readLoop_no_terminator cb after (LoopState.entry t) h).2⟩

/-- Witness for C14: `"PING x"`, newline, `"ab"`, backspace on the example
terminal leaves `"a"` in the buffer. -/
theorem readSerial_buffer_after_last_terminator_witness :
    ((readSerial idle pingTerminal
        (bytes "PING x" ++ pingTerminal.newlineChar_ :: [97, 98, 8])).1.rxBuffer_ =
        [97, 98, 8].foldl editKey [] ∧
      (readSerial idle pingTerminal (bytes "PING x" ++ [pingTerminal.newlineChar_])).1.rxBuffer_ =
        [] ∧
      (readSerial idle pingTerminal [97, 98, 8]).1.rxBuffer_ =
        [97, 98, 8].foldl editKey pingTerminal.rxBuffer_) ∧
    [97, 98, 8].foldl editKey [] = [97] :=
  ⟨readSerial_buffer_after_last_terminator idle pingTerminal (bytes "PING x") [97, 98, 8]
    (by decide), by decide⟩

/-- C15: whatever sequence of public calls (registration, configuration,
`readSerial` on arbitrary bytes, ...) is made on a freshly constructed
terminal, every character of the line buffer is printable ASCII (0x20-0x7E),
and so is whitespace only if it is the space character. -/
theorem lineBuffer_printable (cb : Callbacks) (newLineChar : Byte) (echoStorage : Bool)
    (calls : List Call) :
    (runCalls cb (SerialTerminal.new newLineChar echoStorage) calls).rxBuffer_.all isprint = true ∧
      (runCalls cb (SerialTerminal.new newLineChar echoStorage) calls).rxBuffer_.all lineChar =
        true := by
  have h := (runCalls_buffer_all cb lineChar calls (SerialTerminal.new newLineChar echoStorage)
    (fun c _ hc => lineChar_of_printable c hc) rfl).2
  refine ⟨?_, h⟩
  simp only [List.all_eq_true] at h ⊢
  intro x hx
  have := h x hx
  simp only [lineChar, Bool.and_eq_true] at this
  exact this.1

/-- C19: a byte equal to the configured terminator always takes the
end-of-line branch, whatever character the terminator is (printable,
backspace and delete included), and that branch leaves the line buffer empty;
no public call changes the terminator, and in every state reached from a
freshly constructed terminal the line buffer does not contain it. -/
theorem terminator_precedence (cb : Callbacks) (s : LoopState) (newLineChar : Byte)
    (echoStorage : Bool) (calls : List Call) :
    step cb s.term.newlineChar_ s = dispatchLine cb s ∧
      (step cb s.term.newlineChar_ s).1.term.rxBuffer_ = [] ∧
      (runCalls cb (SerialTerminal.new newLineChar echoStorage) calls).newlineChar_ =
        newLineChar ∧
      (runCalls cb (SerialTerminal.new newLineChar echoStorage) calls).rxBuffer_.all
        (fun c => c != newLineChar) = true := by
  have hstep : step cb s.term.newlineChar_ s = dispatchLine cb s := by simp [step]
  refine ⟨hstep, ?_, ?_⟩
  · rw [hstep]
    simp [dispatchLine, SerialTerminal.clearBuffer]
  · exact runCalls_buffer_all cb (fun c => c != newLineChar) calls
      (SerialTerminal.new newLineChar echoStorage)
      (fun c hc _ => by simpa using hc) rfl

/-! ## Empty names, the receive queue and chunked input -/

theorem dispatchCommand_command_nonempty (cb : Callbacks) (t : SerialTerminal) (m : Bool)
    (w : List Byte) (cs cs1 : IStringStream) (k : Nat) (f : FnPtr)
    (h : Event.command k f cs1 ∈ (dispatchCommand cb t m w cs).2.2) : w ≠ [] := by
  intro hw
  simp [dispatchCommand, hw] at h

theorem step_command_nonempty (cb : Callbacks) (c : Byte) (s : LoopState) (cs1 : IStringStream)
    (k : Nat) (f : FnPtr) (h : Event.command k f cs1 ∈ (step cb c s).2) :
    ∃ w, w ≠ [] ∧ s.term.commandList_[k]? = some { command := w, function := f } := by
  unfold step at h
  by_cases hc : c = s.term.newlineChar_
  · simp only [hc, if_true, dispatchLine, List.mem_append] at h
    rcases h with (h | h) | h
    · split_ifs at h <;> simp at h
    · exact ⟨_, dispatchCommand_command_nonempty cb _ _ _ _ _ _ _ h,
        (dispatchCommand_command_event cb _ _ _ _ _ _ _ h).1⟩
    · unfold dispatchPost at h
      cases hp : s.term.clearStream.postCommandHandler_ <;> rw [hp] at h <;> simp at h
  · simp only [hc, if_false] at h
    split_ifs at h <;> simp at h

theorem readLoop_command_nonempty (cb : Callbacks) (rx : List Byte) (s : LoopState)
    (cs1 : IStringStream) (k : Nat) (f : FnPtr)
    (h : Event.command k f cs1 ∈ (readLoop cb rx s).2) :
    ∃ w, w ≠ [] ∧ s.term.commandList_[k]? = some { command := w, function := f } := by
  induction rx generalizing s with
  | nil => simp [readLoop] at h
  | cons c rx ih =>
    simp only [readLoop, List.mem_append] at h
    rcases h with h | h
    · exact step_command_nonempty cb c s cs1 k f h
    · obtain ⟨h1, -, -, -, -⟩ := step_config cb c s
      have := ih (step cb c s).1 h
      rwa [h1] at this

theorem mem_commandCalls (evs : List Event) (k : Nat) (f : FnPtr)
    (h : (k, f) ∈ commandCalls evs) : ∃ cs, Event.command k f cs ∈ evs := by
  simp only [commandCalls, List.mem_filterMap] at h
  obtain ⟨e, he, hm⟩ := h
  cases e with
  | command k1 f1 cs =>
    simp only [Option.some.injEq, Prod.mk.injEq] at hm
    obtain ⟨rfl, rfl⟩ := hm
    exact ⟨cs, he⟩
  | println => simp at hm
  | print _ => simp at hm
  | default _ _ _ => simp at hm
  | post _ _ => simp at hm

/-- C13: a registry entry with the empty name is never called: for every
registry that has such an entry at position `k` and every input, no
command-handler call of `readSerial` is the call of entry `k` (the scan runs
only for a non-empty command word, and only an entry whose name is that word
is called). -/
theorem readSerial_skips_empty_name (cb : Callbacks) (t : SerialTerminal) (rx : List Byte)
    (k : Nat) (e : SerialTerminalCallback)
    (hk : t.commandList_[k]? = some e) (he : e.command = []) :
    (commandCalls (readSerial cb t rx).2).all (fun c => c.1 != k) = true := by
  simp only [List.all_eq_true, bne_iff_ne, ne_eq]
  rintro ⟨k1, f⟩ hc hk1
  obtain ⟨cs, hev⟩ := mem_commandCalls _ _ _ hc
  obtain ⟨w, hw, hget⟩ := readLoop_command_nonempty cb rx (LoopState.entry t) cs k1 f hev
  have hget : t.commandList_[k1]? = some { command := w, function := f } := hget
  have hk1 : k1 = k := hk1
  rw [hk1, hk] at hget
  have := Option.some.inj hget
  rw [this] at he
  exact hw he

/-- Witness for C13: a handler (function pointer 5) registered under the
empty name in front of `PING`; on an empty line, a blank line and a `PING`
line only entry 1 (`PING`) is called. -/
theorem readSerial_skips_empty_name_witness :
    (commandCalls (readSerial idle
        (((SerialTerminal.new 10 false).addCommand [] 5).addCommand (bytes "PING") 1)
        (bytes "\n  \nPING\n\n")).2).all (fun c => c.1 != 0) = true ∧
      commandCalls (readSerial idle
        (((SerialTerminal.new 10 false).addCommand [] 5).addCommand (bytes "PING") 1)
        (bytes "\n  \nPING\n\n")).2 = [(1, 1), (1, 1)] :=
  ⟨readSerial_skips_empty_name idle
    (((SerialTerminal.new 10 false).addCommand [] 5).addCommand (bytes "PING") 1)
    (bytes "\n  \nPING\n\n") 0 { command := [], function := 5 } (by decide) (by decide),
    by decide⟩

theorem toChar_read (b : Byte) : toChar (b.val : Int) = b := by
  apply Fin.ext
  have hb := b.isLt
  have h1 : ((b.val : Int) % 256).toNat = b.val := by omega
  simp only [toChar, h1, Fin.ofNat]
  exact Nat.mod_eq_of_lt hb

theorem drain_spec (cb : Callbacks) (queue : List Byte) (s : LoopState) (extra : Nat) :
    drain cb (queue.length + 1 + extra) queue s =
      { state := (readLoop cb queue s).1
        queue := []
        reads := queue
        events := (readLoop cb queue s).2
        finished := true } := by
  induction queue generalizing s with
  | nil =>
    have : ([] : List Byte).length + 1 + extra = extra + 1 := by simp; omega
    rw [this]
    simp [drain, available, readLoop]
  | cons b q ih =>
    have : (b :: q).length + 1 + extra = (q.length + 1 + extra) + 1 := by simp; omega
    rw [this]
    simp only [drain, available, List.length_cons, Nat.succ_pos, gt_iff_lt, if_true, read,
      toChar_read, ih, readLoop]

theorem step_of_ne (cb : Callbacks) (c : Byte) (s : LoopState) (hc : c ≠ s.term.newlineChar_) :
    step cb c s =
      ({ s with term := { s.term with rxBuffer_ := editKey s.term.rxBuffer_ c } },
        if s.term.doCharEcho then echoOf s.term.newlineChar_ s.term.rxBuffer_ c else []) := by
  obtain ⟨⟨l, n, nl, buf, cs, echo, ph, dh⟩, m, w⟩ := s
  have hc : ¬ c = nl := hc
  unfold step editKey echoOf
  by_cases hb : c = 8 ∨ c = 127
  · have hp : ¬ (0x20 ≤ c.val ∧ c.val ≤ 0x7E) := by
      rcases hb with rfl | rfl <;> decide
    by_cases he : buf = [] <;> simp [hc, hb, hp, he]
  · by_cases hp : 0x20 ≤ c.val ∧ c.val ≤ 0x7E
    · simp [hc, hb, hp, isprint]
    · have : isprint c = false := by
        simp only [isprint, Bool.and_eq_false_iff, decide_eq_false_iff_not]
        tauto
      simp [hc, hb, hp, this]

theorem editOnly_nil (s : LoopState) : editOnly [] s = (s, []) := by
  simp [editOnly, echoSpec]

theorem editOnly_cons (cb : Callbacks) (c : Byte) (line : List Byte) (s : LoopState)
    (hc : c ≠ s.term.newlineChar_) :
    editOnly (c :: line) s =
      ((editOnly line (step cb c s).1).1, (step cb c s).2 ++ (editOnly line (step cb c s).1).2) := by
  rw [step_of_ne cb c s hc]
  simp only [editOnly, List.foldl_cons, echoSpec, bufferAfter, hc, if_false]
  split_ifs <;> simp

theorem readLoop_byLines (cb : Callbacks) (queue : List Byte) (s : LoopState) :
    readLoop cb queue s =
      byLines cb (splitLines s.term.newlineChar_ queue).1
        (splitLines s.term.newlineChar_ queue).2 s := by
  induction queue generalizing s with
  | nil => simp [readLoop, splitLines, byLines, editOnly_nil]
  | cons b q ih =>
    obtain ⟨-, h2, -, -, -⟩ := step_config cb b s
    by_cases hb : b = s.term.newlineChar_
    · subst hb
      have hstep : step cb s.term.newlineChar_ s = dispatchLine cb s := by simp [step]
      have hnl : (dispatchLine cb s).1.term.newlineChar_ = s.term.newlineChar_ :=
        (dispatchLine_config cb s).2.1
      simp only [readLoop, splitLines, if_true, byLines, editOnly_nil, hstep, ih, hnl,
        List.nil_append]
    · simp only [readLoop, splitLines, hb, if_false, ih, h2]
      cases hl : (splitLines s.term.newlineChar_ q).1 with
      | nil => simp only [byLines, editOnly_cons cb b _ s hb]
      | cons l ls => simp only [byLines, editOnly_cons cb b _ s hb, List.append_assoc]

theorem splitLines_length (t : Byte) (queue : List Byte) :
    (splitLines t queue).1.length = queue.count t := by
  induction queue with
  | nil => rfl
  | cons b q ih =>
    by_cases hb : b = t
    · simp [splitLines, hb, ih]
    · have hne : ¬ (b == t) = true := by simpa using hb
      simp only [splitLines, hb, if_false, List.count_cons, hne, Nat.add_zero]
      rw [← ih]
      cases (splitLines t q).1 <;> simp

theorem joinLines_splitLines (t : Byte) (queue : List Byte) :
    joinLines t (splitLines t queue).1 (splitLines t queue).2 = queue := by
  induction queue with
  | nil => rfl
  | cons b q ih =>
    by_cases hb : b = t
    · simp [splitLines, hb, joinLines, ih]
    · simp only [splitLines, hb, if_false]
      cases hl : (splitLines t q).1 with
      | nil =>
        rw [hl] at ih
        simpa [joinLines] using ih
      | cons l ls =>
        rw [hl] at ih
        simpa [joinLines] using ih

theorem splitLines_free (t : Byte) (queue : List Byte) :
    ((splitLines t queue).1.all (fun l => l.all (fun c => c != t)) &&
      (splitLines t queue).2.all (fun c => c != t)) = true := by
  induction queue with
  | nil => rfl
  | cons b q ih =>
    simp only [Bool.and_eq_true] at ih
    by_cases hb : b = t
    · simpa [splitLines, hb] using ih
    · simp only [splitLines, hb, if_false]
      cases hl : (splitLines t q).1 with
      | nil =>
        rw [hl] at ih
        simpa [hb] using ih.2
      | cons l ls =>
        rw [hl] at ih
        simp only [List.all_cons, Bool.and_eq_true] at ih
        simp only [List.all_cons, Bool.and_eq_true, bne_iff_ne, ne_eq, hb, not_false_eq_true,
          true_and]
        exact ⟨⟨ih.1.1, ih.1.2⟩, ih.2⟩

/-- C16: with `n` bytes waiting in the receive queue, the loop of one
`readSerial` call comes to its end (`n + 1` evaluations of the loop condition
suffice, and more change nothing), has obtained the `n` bytes from `read()`
once each in arrival order, leaves no byte waiting, and yields the object and
events of `readSerial` on those bytes.  What it does is processing by lines:
the queue is its terminated lines followed by the unterminated rest, none of
which contains the terminator, there are as many terminated lines as
terminator bytes in the queue, and state and events of the call are those of
accumulating each terminated line and carrying out one whole line-dispatch
cycle for it, in order, and then accumulating the rest. -/
theorem readSerial_drains_queue (cb : Callbacks) (t : SerialTerminal) (queue : List Byte)
    (extra : Nat) :
    (drain cb (available queue + 1 + extra) queue (LoopState.entry t)).finished = true ∧
      (drain cb (available queue + 1 + extra) queue (LoopState.entry t)).reads = queue ∧
      (drain cb (available queue + 1 + extra) queue (LoopState.entry t)).queue = [] ∧
      available (drain cb (available queue + 1 + extra) queue (LoopState.entry t)).queue = 0 ∧
      ((drain cb (available queue + 1 + extra) queue (LoopState.entry t)).state.term,
        (drain cb (available queue + 1 + extra) queue (LoopState.entry t)).events) =
        readSerial cb t queue ∧
      ((drain cb (available queue + 1 + extra) queue (LoopState.entry t)).state,
        (drain cb (available queue + 1 + extra) queue (LoopState.entry t)).events) =
        byLines cb (splitLines t.newlineChar_ queue).1 (splitLines t.newlineChar_ queue).2
          (LoopState.entry t) ∧
      (splitLines t.newlineChar_ queue).1.length = queue.count t.newlineChar_ ∧
      joinLines t.newlineChar_ (splitLines t.newlineChar_ queue).1
        (splitLines t.newlineChar_ queue).2 = queue ∧
      ((splitLines t.newlineChar_ queue).1.all (fun l => l.all (fun c => c != t.newlineChar_)) &&
        (splitLines t.newlineChar_ queue).2.all (fun c => c != t.newlineChar_)) = true := by
  have h := drain_spec cb queue (LoopState.entry t) extra
  have hl := readLoop_byLines cb queue (LoopState.entry t)
  unfold available
  rw [h]
  refine ⟨rfl, rfl, rfl, rfl, rfl, ?_, splitLines_length _ _, joinLines_splitLines _ _,
    splitLines_free _ _⟩
  exact hl

/-- C18, evaluated where it fails: on the example terminal one call on
`"PING\nFOO\n"` never reaches the default handler, while a call on
`"PING\n"` followed by a call on `"FOO\n"` does; and one call on
`"PING\n\n"` calls `PING` twice, while a call on `"PING\n"` followed by a
call on `"\n"` calls it once.  The locals `matched` and `command` are reset
per call, not per line. -/
theorem readSerial_chunking_differs :
    callbackEvents (readSerial idle pingTerminal (bytes "PING\n" ++ bytes "FOO\n")).2 =
        [Event.command 0 1 { rest := [], eofbit := true, failbit := false },
          Event.post 9 { rest := [], eofbit := true, failbit := false },
          Event.post 9 { rest := [], eofbit := true, failbit := false }] ∧
      callbackEvents (readSerial idle pingTerminal (bytes "PING\n")).2 ++
          callbackEvents (readSerial idle (readSerial idle pingTerminal (bytes "PING\n")).1
            (bytes "FOO\n")).2 =
        [Event.command 0 1 { rest := [], eofbit := true, failbit := false },
          Event.post 9 { rest := [], eofbit := true, failbit := false },
          Event.default 7 (bytes "FOO") { rest := [], eofbit := true, failbit := false },
          Event.post 9 { rest := [], eofbit := true, failbit := false }] ∧
      commandCalls (readSerial idle pingTerminal (bytes "PING\n" ++ bytes "\n")).2 =
        [(0, 1), (0, 1)] ∧
      commandCalls (readSerial idle pingTerminal (bytes "PING\n")).2 ++
          commandCalls (readSerial idle (readSerial idle pingTerminal (bytes "PING\n")).1
            (bytes "\n")).2 =
        [(0, 1)] := by
  decide

end SerialTerminalLib
